import Mathlib

/-!
Verification of the dashboard executor of `internal/dashboardexecute/executor.go`
(powerpipe).  The executor keeps a registry mapping session ids to dashboard
execution trees, starts and cancels executions, validates batch-mode inputs and
propagates user input changes through the declared input-dependency graph.

The Go code is embedded shallowly:

* a Go `map[string]any` whose values may be `nil` becomes an association list
  `InputMap V = List (String × Option V)`; a missing key and a key stored with
  `nil` both read back as `none`, exactly as a Go map read does;
* the declared dependency information of the root run
  (`root.GetInputsDependingOn`) becomes a function `Graph = String → List String`;
* the recursive `clearDependentInputs` is embedded level by level:
  `clearLoopAt` is the body of one activation (the `for` loop over
  `dependentInputs`), parameterised by the procedure used for the nested
  recursive call, and `clearLoopF` ties the levels together with an explicit
  nesting-depth budget.  The budget only shrinks when a non-null input has just
  been set to null, so `nonNullCount inputs` levels are always enough
  (theorem `clearDependentInputsF_terminates`); `clearDependentInputs` runs the
  recursion with exactly that budget.  Both functions are structurally
  recursive, hence computable by the kernel.
-/

namespace Powerpipe

/-- Go `map[string]any` (input name → value, `nil` allowed), as an association
list.  `none` plays the role of Go `nil`. -/
abbrev InputMap (V : Type) := List (String × Option V)

/-- Reading `inputs[name]` in Go: the value of the first entry for `name`, and
`nil` (`none`) when the key is absent. -/
def lookupInput {V : Type} : InputMap V → String → Option V
  | [], _ => none
  | (k, v) :: rest, name => if k = name then v else lookupInput rest name

/-- Go `inputs[name] = nil` for a key that is present: the entry keeps its key
and loses its value.  (`clearDependentInputs` only assigns `nil` to keys it has
just read a non-nil value from, so the key is always present.) -/
def setNull {V : Type} : InputMap V → String → InputMap V
  | [], _ => []
  | (k, v) :: rest, name =>
    if k = name then (k, (none : Option V)) :: rest else (k, v) :: setNull rest name

/-- Number of entries currently holding a non-null value. -/
def nonNullCount {V : Type} (m : InputMap V) : Nat :=
  m.countP (fun p => p.2.isSome)

/-- Go `_, ok := inputs[name]`: key presence, regardless of a `nil` value. -/
def containsKey {V : Type} (m : InputMap V) (name : String) : Bool :=
  m.any (fun p => p.1 == name)

/-- The declared-dependency information of the root dashboard run: for an input
name, the list of input names whose dependency set contains it
(`root.GetInputsDependingOn`). -/
abbrev Graph := String → List String

/-- `root.GetInputsDependingOn(changedInput)` (dashboardtypes.DashboardTreeRun). -/
def GetInputsDependingOn (root : Graph) (changedInput : String) : List String :=
  root changedInput

/-- One activation of `clearDependentInputs` (executor.go:180-195) past the
point where `dependentInputs` has been computed: the `for` loop over
`dependentInputs`.  `deeper` performs the nested recursive
`e.clearDependentInputs(root, inputName, inputs)` call; it is fed the map in
which `inputName` has just been set to null, and the name's dependents, and
returns the child cleared list together with the map as mutated by the nested
call (or `none` if its own recursion budget is exhausted).  The activation's
result `(cleared, inputs)` accumulates `append(clearedInputs, child...)` and
the in-place mutation of `inputs`. -/
def clearLoopAt {V : Type} (root : Graph)
    (deeper : InputMap V → List String → Option (List String × InputMap V)) :
    InputMap V → List String → Option (List String × InputMap V)
  | inputs, [] => some ([], inputs)
  | inputs, inputName :: rest =>
    if (lookupInput inputs inputName).isSome then
      -- inputs[inputName] != nil: clear the input value, recurse, append
      match deeper (setNull inputs inputName) (GetInputsDependingOn root inputName) with
      | none => none
      | some (childDependentInputs, inputs₁) =>
        match clearLoopAt root deeper inputs₁ rest with
        | none => none
        | some (clearedRest, inputs₂) =>
          some (GetInputsDependingOn root inputName ++ childDependentInputs ++ clearedRest,
                inputs₂)
    else
      clearLoopAt root deeper inputs rest

/-- The loop of `clearDependentInputs`, allowed `fuel` further levels of nested
recursion.  A nested call is only made right after a non-null input has been
set to null, so the number of non-null entries bounds the nesting depth. -/
def clearLoopF {V : Type} (root : Graph) :
    Nat → InputMap V → List String → Option (List String × InputMap V)
  | 0 => clearLoopAt root (fun _ _ => none)
  | fuel + 1 => clearLoopAt root (clearLoopF root fuel)

/-- `e.clearDependentInputs(root, changedInput, inputs)` (executor.go:180-195)
run with a nesting budget of `fuel`: the returned `clearedInputs` slice starts
as `dependentInputs` and the loop appends the recursively cleared names; the
second component is the mutated `inputs` map. -/
def clearDependentInputsF {V : Type} (root : Graph) (fuel : Nat)
    (changedInput : String) (inputs : InputMap V) :
    Option (List String × InputMap V) :=
  match clearLoopF root fuel inputs (GetInputsDependingOn root changedInput) with
  | some (cleared, inputs') => some (GetInputsDependingOn root changedInput ++ cleared, inputs')
  | none => none

/-- `e.clearDependentInputs(root, changedInput, inputs)`: the recursion always
terminates within `nonNullCount inputs` nested levels
(theorem `clearDependentInputsF_terminates`), so run it with that budget.  The
`none` fallback is unreachable. -/
def clearDependentInputs {V : Type} (root : Graph) (changedInput : String)
    (inputs : InputMap V) : List String × InputMap V :=
  match clearDependentInputsF root (nonNullCount inputs) changedInput inputs with
  | some r => r
  | none => (GetInputsDependingOn root changedInput, inputs)

/-! ### The spec's restricted transitive closure -/

/-- Reachability along declared dependents through inputs holding a non-null
value in `m`: `Reach root m pending z` holds when there is a chain
`y = z₀, z₁, …, zₖ = z` with `y ∈ pending`, every `zᵢ` non-null in `m`, and
`z_{i+1}` a declared dependent of `zᵢ`.  For `pending = GetInputsDependingOn
root changedInput` this is the transitive closure of declared-dependents
restricted to currently non-null inputs, as described by spec §4.4. -/
inductive Reach {V : Type} (root : Graph) (m : InputMap V) (pending : List String) :
    String → Prop
  | base {y : String} : y ∈ pending → (lookupInput m y).isSome → Reach root m pending y
  | step {y z : String} : Reach root m pending y → z ∈ GetInputsDependingOn root y →
      (lookupInput m z).isSome → Reach root m pending z

/-- What a (sufficiently fuelled) run of the clearing loop over `pending` does:
which names it returns and how it leaves the map, phrased through the
restricted closure `Reach`. -/
def ClearOutcome {V : Type} (root : Graph) (m : InputMap V) (pending : List String)
    (cleared : List String) (m' : InputMap V) : Prop :=
  (∀ z, Reach root m pending z → lookupInput m' z = none) ∧
  (∀ z, ¬ Reach root m pending z → lookupInput m' z = lookupInput m z) ∧
  (∀ z, z ∈ cleared ↔ ∃ y, Reach root m pending y ∧ z ∈ GetInputsDependingOn root y)

/-! ### Executor data model

The executor facade (executor.go) is embedded as pure state transformers.  The
execution tree type and its methods live in the tree code, outside the embedded
source: only the fields and methods the executor touches appear here, modelled
from the spec where noted.  Events carry the payload fields the claims mention
(timestamps are not modelled).  A Go `context.Context` enters only through
`ctx.Err()` at the time `ExecuteDashboard` returns, so it is modelled as that
value. -/

/-- Association-list lookup for the `executions` registry (Go map read). -/
def lookupAssoc {α : Type} : List (String × α) → String → Option α
  | [], _ => none
  | (k, v) :: rest, key => if k = key then some v else lookupAssoc rest key

/-- Go map assignment `m[k] = v`: replace the entry if present, else add it. -/
def setAssoc {α : Type} : List (String × α) → String → α → List (String × α)
  | [], key, v => [(key, v)]
  | (k, v') :: rest, key, v =>
    if k = key then (k, v) :: rest else (k, v') :: setAssoc rest key v

/-- Go `delete(m, k)`. -/
def removeAssoc {α : Type} (l : List (String × α)) (key : String) : List (String × α) :=
  l.filter (fun p => !(p.1 == key))

/-- Modelled from the spec (§4.2; the run-status type lives in the tree code,
outside the embedded source): the run-wide status of an execution tree. -/
inductive DashboardRunStatus
  | initialized
  | blocked
  | running
  | complete
  | error
  | cancelled
deriving DecidableEq

/-- Modelled from the spec (§4.2 "Terminal: complete, error, cancelled"):
`GetRunStatus().IsFinished()`. -/
def DashboardRunStatus.IsFinished : DashboardRunStatus → Bool
  | .complete => true
  | .error => true
  | .cancelled => true
  | _ => false

/-- The execution tree as the executor sees it (`DashboardExecutionTree` is
defined in the tree code, outside the embedded source; only the fields and
methods `executor.go` touches are modelled). -/
structure DashboardExecutionTree (V : Type) where
  /-- the declared-dependency information of the root run, as queried through
  `executionTree.Root.GetInputsDependingOn` -/
  Root : Graph
  /-- the tree's own input-value map (`executionTree.inputValues`) -/
  inputValues : InputMap V
  /-- `executionTree.sessionId` -/
  sessionId : String
  /-- `executionTree.id` -/
  id : String
  /-- `executionTree.GetRunStatus()` -/
  runStatus : DashboardRunStatus
  /-- `executionTree.InputRuntimeDependencies()`: the input names any node of
  the tree depends on (spec §4.2) -/
  inputRuntimeDependencies : List String

/-- Modelled from the spec (§4.2 "SetInputValues(inputs): for each input name,
store the new value"; the method lives in the tree code, outside the embedded
source): apply a batch of updates to the tree's input-value map. -/
def SetInputValues {V : Type} (executionTree : DashboardExecutionTree V)
    (inputs : InputMap V) : DashboardExecutionTree V :=
  { executionTree with
      inputValues := inputs.foldl (fun acc p => setAssoc acc p.1 p.2)
        executionTree.inputValues }

/-- The dashboard events published by the executor (dashboardevents), with the
payload fields the claims mention. -/
inductive DashboardEvent
  | executionError (err : String) (session : String)
  | inputValuesCleared (clearedInputs : List String) (session : String) (executionId : String)
deriving DecidableEq

/-- `ctx.Err()` at the moment `ExecuteDashboard` returns: `none` while the
context is live, otherwise the context's error. -/
inductive CtxError
  | deadlineExceeded
  | canceled
deriving DecidableEq

/-- The Go error text of a context error (`ctx.Err().Error()`). -/
def CtxError.message : CtxError → String
  | .deadlineExceeded => "context deadline exceeded"
  | .canceled => "context canceled"

/-- `DashboardExecutor` (executor.go:22-33): the session registry and the
interactive flag.  `executionLock` guards the registry in Go; the lock
discipline is modelled separately by the `RegistryOp` traces below.
`defaultClient` is an external database handle and plays no part in any
claim. -/
structure DashboardExecutor (V : Type) where
  executions : List (String × DashboardExecutionTree V)
  interactive : Bool

/-- `NewDashboardExecutor` (executor.go:35-42): empty registry, interactive by
default. -/
def NewDashboardExecutor {V : Type} : DashboardExecutor V :=
  { executions := [], interactive := true }

/-- `getExecution` (executor.go:212-218). -/
def getExecution {V : Type} (e : DashboardExecutor V) (sessionId : String) :
    Option (DashboardExecutionTree V) :=
  lookupAssoc e.executions sessionId

/-- `setExecution` (executor.go:220-225). -/
def setExecution {V : Type} (e : DashboardExecutor V) (sessionId : String)
    (executionTree : DashboardExecutionTree V) : DashboardExecutor V :=
  { e with executions := setAssoc e.executions sessionId executionTree }

/-- `removeExecution` (executor.go:227-232). -/
def removeExecution {V : Type} (e : DashboardExecutor V) (sessionId : String) :
    DashboardExecutor V :=
  { e with executions := removeAssoc e.executions sessionId }

/-- Result of `CancelExecutionForSession`: the executor afterwards, the trees
on which `Cancel()` was invoked, and the events published (the function
publishes none). -/
structure CancelResult (V : Type) where
  executor : DashboardExecutor V
  cancelled : List (DashboardExecutionTree V)
  events : List DashboardEvent

/-- `CancelExecutionForSession` (executor.go:197-209): look the session up
(through the locked `getExecution`); when absent, do nothing; when found,
`Cancel()` the tree and remove it from the registry. -/
def CancelExecutionForSession {V : Type} (e : DashboardExecutor V) (sessionId : String) :
    CancelResult V :=
  match getExecution e sessionId with
  | none => { executor := e, cancelled := [], events := [] }
  | some executionTree =>
    { executor := removeExecution e sessionId
      cancelled := [executionTree]
      events := [] }

/-- `utils.Pluralize` of pipe-fittings (external to this repository), modelled
from the spec: the word, with an s appended when the count is not one. -/
def pluralize (word : String) (count : Nat) : String :=
  if count = 1 then word else word ++ "s"

/-- A single-quote character, as a string. -/
def sq : String := String.singleton (Char.ofNat 39)

/-- `validateInputs` (executor.go:97-113), returning the error message (`none`
for success): interactive executions skip validation; otherwise every name in
`InputRuntimeDependencies()` must be a key of `inputs`, and the failure
message lists the missing names after the word input pluralized by their
count. -/
def validateInputs {V : Type} (e : DashboardExecutor V)
    (executionTree : DashboardExecutionTree V) (inputs : InputMap V) : Option String :=
  if e.interactive then
    none
  else
    let missingInputs := executionTree.inputRuntimeDependencies.filter
      (fun inputName => !(containsKey inputs inputName))
    if 0 < missingInputs.length then
      some (pluralize "input" missingInputs.length ++ " " ++ sq
        ++ String.intercalate "," missingInputs ++ sq
        ++ " must be provided using " ++ sq ++ "--arg name=value" ++ sq)
    else
      none

/-- Result of `ExecuteDashboard`: the executor afterwards, the events
published on the workspace, the returned error, and the trees cancelled by the
initial `CancelExecutionForSession`. -/
structure ExecResult (V : Type) where
  executor : DashboardExecutor V
  events : List DashboardEvent
  err : Option String
  cancelled : List (DashboardExecutionTree V)

/-- `ExecuteDashboard` (executor.go:46-93).  `ctx` is `ctx.Err()` at return
time; `newTree` is the result of `newDashboardExecutionTree` (tree
construction lives outside the embedded source, so the constructed tree or the
construction error is a parameter).  The body cancels any previous execution
for the session, validates inputs in batch mode, registers the tree, seeds the
supplied inputs when any were passed (the Go code registers the tree pointer
and then mutates it with `SetInputValues`; here the registered tree is the
seeded one) and schedules `executionTree.Execute` asynchronously.  The
deferred epilogue (executor.go:48-65) turns a deadline-exceeded context into
the fixed "execution timed out" error when the body produced none — any other
context error is returned as its own text — and publishes an `ExecutionError`
event carrying any non-nil error and the session id. -/
def ExecuteDashboard {V : Type} (e : DashboardExecutor V) (ctx : Option CtxError)
    (sessionId : String) (newTree : Except String (DashboardExecutionTree V))
    (inputs : InputMap V) : ExecResult V :=
  let c := CancelExecutionForSession e sessionId
  let body : DashboardExecutor V × Option String :=
    match newTree with
    | .error msg => (c.executor, some msg)
    | .ok executionTree =>
      match validateInputs e executionTree inputs with
      | some msg => (c.executor, some msg)
      | none =>
        let seeded := if 0 < inputs.length then SetInputValues executionTree inputs
          else executionTree
        (setExecution c.executor sessionId seeded, none)
  let err : Option String :=
    match body.2, ctx with
    | none, some ctxErr =>
      if ctxErr.message = CtxError.deadlineExceeded.message then
        some "execution timed out"
      else
        some ctxErr.message
    | bodyErr, _ => bodyErr
  { executor := body.1
    events :=
      match err with
      | some msg => [DashboardEvent.executionError msg sessionId]
      | none => []
    err := err
    cancelled := c.cancelled }

/-- Which path `OnInputChanged` took: unknown session, restart through
`ExecuteDashboard`, or inputs applied to the live tree. -/
inductive OnInputOutcome
  | noSession
  | restarted
  | applied
deriving DecidableEq

/-- Result of `OnInputChanged`. -/
structure OnInputResult (V : Type) where
  executor : DashboardExecutor V
  events : List DashboardEvent
  err : Option String
  outcome : OnInputOutcome
  cancelled : List (DashboardExecutionTree V)

/-- `OnInputChanged` (executor.go:144-178).  Looks the session up directly in
`e.executions` (line 146), reads the previous value of the changed input from
the tree's own map, clears dependent inputs inside the supplied `inputs` map,
publishes an `InputValuesCleared` event when any names were collected, and
then either restarts through `ExecuteDashboard` — when the run status is
finished or the previous value was non-nil; `newTree` is the tree that
`newDashboardExecutionTree` would rebuild from
`executionTree.Root.GetResource()` — or applies the inputs to the live tree
with `SetInputValues` and returns no error. -/
def OnInputChanged {V : Type} (e : DashboardExecutor V) (ctx : Option CtxError)
    (newTree : Except String (DashboardExecutionTree V)) (sessionId : String)
    (inputs : InputMap V) (changedInput : String) : OnInputResult V :=
  match lookupAssoc e.executions sessionId with
  | none =>
    { executor := e
      events := []
      err := some ("no dashboard running for session " ++ sessionId)
      outcome := .noSession
      cancelled := [] }
  | some executionTree =>
    let inputPrevValue := lookupInput executionTree.inputValues changedInput
    let cleared := clearDependentInputs executionTree.Root changedInput inputs
    let clearedEvents : List DashboardEvent :=
      if 0 < cleared.1.length then
        [DashboardEvent.inputValuesCleared cleared.1 executionTree.sessionId executionTree.id]
      else []
    if executionTree.runStatus.IsFinished || inputPrevValue.isSome then
      let r := ExecuteDashboard e ctx sessionId newTree cleared.2
      { executor := r.executor
        events := clearedEvents ++ r.events
        err := r.err
        outcome := .restarted
        cancelled := r.cancelled }
    else
      let seeded := SetInputValues executionTree cleared.2
      { executor := { e with executions := setAssoc e.executions sessionId seeded }
        events := clearedEvents
        err := none
        outcome := .applied
        cancelled := [] }

/-! ### Registry lock discipline (traces)

To state the mutex claim, each public operation is transcribed as the sequence
of primitive steps it performs on the registry, the `executionLock` mutex and
the trees, in the order they appear in the source. -/

/-- Primitive steps touching the executor's registry, its mutex, or a tree. -/
inductive RegistryOp
  | lockAcquire
  | lockRelease
  | mapRead
  | mapWrite
  | mapDelete
  | treeCancel
  | treeExecute
deriving DecidableEq

/-- `getExecution` (executor.go:212-218): lock, read the map, unlock. -/
def getExecutionOps : List RegistryOp :=
  [RegistryOp.lockAcquire, RegistryOp.mapRead, RegistryOp.lockRelease]

/-- `setExecution` (executor.go:220-225): lock, write the map, unlock. -/
def setExecutionOps : List RegistryOp :=
  [RegistryOp.lockAcquire, RegistryOp.mapWrite, RegistryOp.lockRelease]

/-- `removeExecution` (executor.go:227-232): lock, delete from the map, unlock. -/
def removeExecutionOps : List RegistryOp :=
  [RegistryOp.lockAcquire, RegistryOp.mapDelete, RegistryOp.lockRelease]

/-- `CancelExecutionForSession` (executor.go:197-209): a locked lookup, then —
when a tree was found — `Cancel()` on the tree and a locked removal. -/
def cancelExecutionForSessionOps (found : Bool) : List RegistryOp :=
  getExecutionOps ++
    if found then RegistryOp.treeCancel :: removeExecutionOps else []

/-- `ExecuteDashboard` (executor.go:46-93): cancellation of any previous tree
for the session, then — when tree construction and validation succeed — the
locked registration followed by `go executionTree.Execute(ctx)`, which runs
with no lock held. -/
def executeDashboardOps (foundPrev treeOk validateOk : Bool) : List RegistryOp :=
  cancelExecutionForSessionOps foundPrev ++
    if treeOk && validateOk then setExecutionOps ++ [RegistryOp.treeExecute] else []

/-- `OnInputChanged` (executor.go:144-178): the session lookup at line 146
reads `e.executions` directly, without `executionLock`; afterwards, on the
restart path, the registry operations of `ExecuteDashboard`. -/
def onInputChangedOps (found restart foundPrev treeOk validateOk : Bool) : List RegistryOp :=
  RegistryOp.mapRead ::
    if found && restart then executeDashboardOps foundPrev treeOk validateOk else []

/-- Every registry access (read, write, delete) in the trace happens while the
mutex is held, starting from hold-depth `d`. -/
def registryAccessesLocked : Nat → List RegistryOp → Bool
  | _, [] => true
  | d, RegistryOp.lockAcquire :: rest => registryAccessesLocked (d + 1) rest
  | d, RegistryOp.lockRelease :: rest => registryAccessesLocked (d - 1) rest
  | d, RegistryOp.mapRead :: rest => decide (0 < d) && registryAccessesLocked d rest
  | d, RegistryOp.mapWrite :: rest => decide (0 < d) && registryAccessesLocked d rest
  | d, RegistryOp.mapDelete :: rest => decide (0 < d) && registryAccessesLocked d rest
  | d, RegistryOp.treeCancel :: rest => registryAccessesLocked d rest
  | d, RegistryOp.treeExecute :: rest => registryAccessesLocked d rest

/-- A tree is never handed to `Execute` while the mutex is held, starting from
hold-depth `d`. -/
def treeExecuteUnlocked : Nat → List RegistryOp → Bool
  | _, [] => true
  | d, RegistryOp.lockAcquire :: rest => treeExecuteUnlocked (d + 1) rest
  | d, RegistryOp.lockRelease :: rest => treeExecuteUnlocked (d - 1) rest
  | d, RegistryOp.treeExecute :: rest => decide (d = 0) && treeExecuteUnlocked d rest
  | d, _ :: rest => treeExecuteUnlocked d rest

/-! ### Concrete sample data (used by witnesses and counterexamples) -/

/-- A tree with no declared dependents, no inputs, still running. -/
def sampleTreeRunning : DashboardExecutionTree Nat :=
  { Root := fun _ => []
    inputValues := []
    sessionId := "s1"
    id := "e1"
    runStatus := DashboardRunStatus.running
    inputRuntimeDependencies := [] }

/-- The same tree at terminal status. -/
def sampleTreeComplete : DashboardExecutionTree Nat :=
  { sampleTreeRunning with runStatus := DashboardRunStatus.complete }

/-- The same tree with one required input. -/
def sampleTreeBatchDeps : DashboardExecutionTree Nat :=
  { sampleTreeRunning with inputRuntimeDependencies := ["region"] }

/-- An interactive executor with `sampleTreeRunning` registered for `s1`. -/
def sampleExecRunning : DashboardExecutor Nat :=
  { executions := [("s1", sampleTreeRunning)], interactive := true }

/-- An interactive executor with `sampleTreeComplete` registered for `s1`. -/
def sampleExecComplete : DashboardExecutor Nat :=
  { executions := [("s1", sampleTreeComplete)], interactive := true }

/-- A batch-mode executor with an empty registry. -/
def sampleExecBatch : DashboardExecutor Nat :=
  { executions := [], interactive := false }

/-! ### Basic lemmas about the input-map operations -/

theorem nonNullCount_cons_none {V : Type} (k : String) (rest : InputMap V) :
    nonNullCount ((k, (none : Option V)) :: rest) = nonNullCount rest := by
  simp [nonNullCount, List.countP_cons]

theorem nonNullCount_cons_some {V : Type} (k : String) (a : V) (rest : InputMap V) :
    nonNullCount ((k, some a) :: rest) = nonNullCount rest + 1 := by
  simp [nonNullCount, List.countP_cons]

theorem lookupInput_setNull {V : Type} (m : InputMap V) (x y : String) :
    lookupInput (setNull m x) y = if y = x then none else lookupInput m y := by
  induction m with
  | nil => simp [setNull, lookupInput]
  | cons p rest ih =>
    obtain ⟨k, v⟩ := p
    by_cases hk : k = x
    · subst hk
      by_cases hy : y = k
      · subst hy
        simp [setNull, lookupInput]
      · have hky : ¬ k = y := fun h => hy h.symm
        simp [setNull, lookupInput, hky, hy]
    · by_cases hky : k = y
      · subst hky
        have hyx : ¬ k = x := hk
        simp [setNull, lookupInput, hk, hyx]
      · simp [setNull, lookupInput, hk, hky, ih]

theorem nonNullCount_setNull_le {V : Type} (m : InputMap V) (x : String) :
    nonNullCount (setNull m x) ≤ nonNullCount m := by
  induction m with
  | nil => exact Nat.le_refl _
  | cons p rest ih =>
    obtain ⟨k, v⟩ := p
    by_cases hk : k = x
    · cases v with
      | none => simp [setNull, hk, nonNullCount_cons_none]
      | some a =>
        simp only [setNull, if_pos hk, nonNullCount_cons_none, nonNullCount_cons_some]
        omega
    · cases v with
      | none => simpa [setNull, hk, nonNullCount_cons_none] using ih
      | some a =>
        simp only [setNull, if_neg hk, nonNullCount_cons_some]
        omega

theorem nonNullCount_setNull_lt {V : Type} (m : InputMap V) (x : String)
    (h : (lookupInput m x).isSome) : nonNullCount (setNull m x) < nonNullCount m := by
  induction m with
  | nil => simp [lookupInput] at h
  | cons p rest ih =>
    obtain ⟨k, v⟩ := p
    by_cases hk : k = x
    · simp only [lookupInput, if_pos hk] at h
      cases v with
      | none => simp at h
      | some a =>
        simp only [setNull, if_pos hk, nonNullCount_cons_none, nonNullCount_cons_some]
        omega
    · simp only [lookupInput, if_neg hk] at h
      have hlt := ih h
      cases v with
      | none =>
        simpa [setNull, hk, nonNullCount_cons_none] using hlt
      | some a =>
        simp only [setNull, if_neg hk, nonNullCount_cons_some]
        omega

theorem nonNullCount_eq_zero_lookup {V : Type} (m : InputMap V)
    (h : nonNullCount m = 0) (x : String) : lookupInput m x = none := by
  induction m with
  | nil => simp [lookupInput]
  | cons p rest ih =>
    obtain ⟨k, v⟩ := p
    cases v with
    | none =>
      have h' : nonNullCount rest = 0 := by
        rw [nonNullCount_cons_none] at h
        exact h
      by_cases hk : k = x
      · simp [lookupInput, hk]
      · simp only [lookupInput, if_neg hk]
        exact ih h'
    | some a =>
      rw [nonNullCount_cons_some] at h
      omega

theorem Reach.nonNull {V : Type} {root : Graph} {m : InputMap V} {pending : List String}
    {z : String} (h : Reach root m pending z) : (lookupInput m z).isSome := by
  cases h with
  | base _ hs => exact hs
  | step _ _ hs => exact hs

theorem Reach.mono {V : Type} {root : Graph} {m m' : InputMap V} {P P' : List String}
    {z : String}
    (hm : ∀ w, (lookupInput m w).isSome → (lookupInput m' w).isSome)
    (hP : ∀ w, w ∈ P → w ∈ P') (h : Reach root m P z) : Reach root m' P' z := by
  induction h with
  | base hy hs => exact Reach.base (hP _ hy) (hm _ hs)
  | step _ hdep hs ih => exact Reach.step ih hdep (hm _ hs)

theorem reach_nil {V : Type} {root : Graph} {m : InputMap V} {z : String}
    (h : Reach root m [] z) : False := by
  induction h with
  | base hy _ => simp at hy
  | step _ _ _ ih => exact ih

theorem reach_cons_of_null {V : Type} {root : Graph} {m : InputMap V} {x : String}
    {xs : List String} (hx : lookupInput m x = none) (z : String) :
    Reach root m (x :: xs) z ↔ Reach root m xs z := by
  constructor
  · intro h
    induction h with
    | @base y hy hs =>
      rcases List.mem_cons.mp hy with rfl | hyxs
      · rw [hx] at hs
        simp at hs
      · exact Reach.base hyxs hs
    | @step y w hy hdep hs ih => exact Reach.step ih hdep hs
  · exact Reach.mono (fun _ h => h) (fun w hw => List.mem_cons_of_mem _ hw)

/-- Expanding a non-null head: a chain among the head's dependents in the map
with the head nulled extends to a chain from `x :: xs` in the original map. -/
theorem reach_of_expand {V : Type} {root : Graph} {m : InputMap V} {x : String}
    {xs : List String} (hx : (lookupInput m x).isSome) {z : String}
    (h : Reach root (setNull m x) (GetInputsDependingOn root x) z) :
    Reach root m (x :: xs) z := by
  induction h with
  | @base y hy hs =>
    rw [lookupInput_setNull] at hs
    by_cases hyx : y = x
    · rw [if_pos hyx] at hs
      simp at hs
    · rw [if_neg hyx] at hs
      exact Reach.step (Reach.base (List.mem_cons_self x xs) hx) hy hs
  | @step y w hy hdep hs ih =>
    rw [lookupInput_setNull] at hs
    by_cases hwx : w = x
    · rw [if_pos hwx] at hs
      simp at hs
    · rw [if_neg hwx] at hs
      exact Reach.step ih hdep hs

/-- Decomposition of reachability from `x :: xs` when `x` is non-null: the
reachable set splits into `x` itself, the set reached inside the nested
recursive call (from `x`'s dependents, with `x` already nulled), and the set
reached from `xs` in the map `m₁` left behind by the nested call.  The map
`m₁` is described by which inputs the nested call set to null. -/
theorem reach_cons_decomp {V : Type} (root : Graph) (m m₁ : InputMap V) (x : String)
    (xs : List String) (hx : (lookupInput m x).isSome)
    (h₁null : ∀ z, Reach root (setNull m x) (GetInputsDependingOn root x) z →
      lookupInput m₁ z = none)
    (h₁keep : ∀ z, ¬ Reach root (setNull m x) (GetInputsDependingOn root x) z →
      lookupInput m₁ z = lookupInput (setNull m x) z)
    (z : String) :
    Reach root m (x :: xs) z ↔
      (z = x ∨ Reach root (setNull m x) (GetInputsDependingOn root x) z ∨
        Reach root m₁ xs z) := by
  have hm₁m : ∀ w, (lookupInput m₁ w).isSome → (lookupInput m w).isSome := by
    intro w hw
    by_cases hR : Reach root (setNull m x) (GetInputsDependingOn root x) w
    · rw [h₁null w hR] at hw
      simp at hw
    · rw [h₁keep w hR, lookupInput_setNull] at hw
      by_cases hwx : w = x
      · rw [if_pos hwx] at hw
        simp at hw
      · rw [if_neg hwx] at hw
        exact hw
  constructor
  · intro h
    induction h with
    | @base y hy hs =>
      rcases List.mem_cons.mp hy with rfl | hyxs
      · exact Or.inl rfl
      · by_cases hR : Reach root (setNull m x) (GetInputsDependingOn root x) y
        · exact Or.inr (Or.inl hR)
        · by_cases hyx : y = x
          · exact Or.inl hyx
          · refine Or.inr (Or.inr (Reach.base hyxs ?_))
            rw [h₁keep _ hR, lookupInput_setNull, if_neg hyx]
            exact hs
    | @step y w hy hdep hs ih =>
      by_cases hwx : w = x
      · exact Or.inl hwx
      · by_cases hR : Reach root (setNull m x) (GetInputsDependingOn root x) w
        · exact Or.inr (Or.inl hR)
        · rcases ih with rfl | h₁ | h₂
          · exact absurd (Reach.base hdep
              (by rw [lookupInput_setNull, if_neg hwx]; exact hs)) hR
          · exact absurd (Reach.step h₁ hdep
              (by rw [lookupInput_setNull, if_neg hwx]; exact hs)) hR
          · refine Or.inr (Or.inr (Reach.step h₂ hdep ?_))
            rw [h₁keep _ hR, lookupInput_setNull, if_neg hwx]
            exact hs
  · intro h
    rcases h with rfl | h₁ | h₂
    · exact Reach.base (List.mem_cons_self z xs) hx
    · exact reach_of_expand hx h₁
    · exact Reach.mono hm₁m (fun w hw => List.mem_cons_of_mem _ hw) h₂

/-! ### The clearing loop: fuel, success and characterization -/

theorem clearLoopAt_of_zero {V : Type} (root : Graph)
    (deeper : InputMap V → List String → Option (List String × InputMap V))
    (m : InputMap V) (h : nonNullCount m = 0) (p : List String) :
    clearLoopAt root deeper m p = some ([], m) := by
  induction p with
  | nil => rfl
  | cons x xs ih =>
    have hx : lookupInput m x = none := nonNullCount_eq_zero_lookup m h x
    simp only [clearLoopAt, hx, Option.isSome_none, Bool.false_eq_true, if_false]
    exact ih

theorem clearLoopAt_count_le {V : Type} (root : Graph)
    (deeper : InputMap V → List String → Option (List String × InputMap V))
    (hd : ∀ (m : InputMap V) p r m', deeper m p = some (r, m') →
      nonNullCount m' ≤ nonNullCount m) :
    ∀ (p : List String) (m : InputMap V) r m', clearLoopAt root deeper m p = some (r, m') →
      nonNullCount m' ≤ nonNullCount m := by
  intro p
  induction p with
  | nil =>
    intro m r m' h
    simp only [clearLoopAt, Option.some.injEq, Prod.mk.injEq] at h
    obtain ⟨-, rfl⟩ := h
    exact Nat.le_refl _
  | cons x xs ih =>
    intro m r m' h
    by_cases hx : (lookupInput m x).isSome
    · simp only [clearLoopAt, if_pos hx] at h
      split at h
      · simp at h
      · rename_i r₁ m₁ hd1
        split at h
        · simp at h
        · rename_i r₂ m₂ h2
          simp only [Option.some.injEq, Prod.mk.injEq] at h
          obtain ⟨-, rfl⟩ := h
          have hA := hd _ _ _ _ hd1
          have hB := ih _ _ _ h2
          have hC := nonNullCount_setNull_le m x
          omega
    · simp only [clearLoopAt, if_neg hx] at h
      exact ih _ _ _ h

theorem clearLoopF_count_le {V : Type} (root : Graph) :
    ∀ (fuel : Nat) (p : List String) (m : InputMap V) r m',
      clearLoopF root fuel m p = some (r, m') → nonNullCount m' ≤ nonNullCount m := by
  intro fuel
  induction fuel with
  | zero =>
    exact clearLoopAt_count_le root _ (by intro m p r m' h; simp at h)
  | succ f ih =>
    exact clearLoopAt_count_le root _ (fun m p r m' h => ih p m r m' h)

theorem clearLoopAt_isSome {V : Type} (root : Graph)
    (deeper : InputMap V → List String → Option (List String × InputMap V)) (fuel : Nat)
    (hdS : ∀ (m : InputMap V) p, nonNullCount m ≤ fuel → (deeper m p).isSome)
    (hdC : ∀ (m : InputMap V) p r m', deeper m p = some (r, m') →
      nonNullCount m' ≤ nonNullCount m) :
    ∀ (p : List String) (m : InputMap V), nonNullCount m ≤ fuel + 1 →
      (clearLoopAt root deeper m p).isSome := by
  intro p
  induction p with
  | nil => intro m _; simp [clearLoopAt]
  | cons x xs ih =>
    intro m hm
    by_cases hx : (lookupInput m x).isSome
    · have h1 : nonNullCount (setNull m x) ≤ fuel := by
        have := nonNullCount_setNull_lt m x hx
        omega
      have h2 := hdS (setNull m x) (GetInputsDependingOn root x) h1
      rcases hd1 : deeper (setNull m x) (GetInputsDependingOn root x) with - | ⟨r₁, m₁⟩
      · rw [hd1] at h2; simp at h2
      · have h3 : nonNullCount m₁ ≤ fuel + 1 := by
          have hA := hdC _ _ _ _ hd1
          have hB := nonNullCount_setNull_le m x
          omega
        have h4 := ih m₁ h3
        rcases h5 : clearLoopAt root deeper m₁ xs with - | ⟨r₂, m₂⟩
        · rw [h5] at h4; simp at h4
        · simp [clearLoopAt, if_pos hx, hd1, h5]
    · simp only [clearLoopAt, if_neg hx]
      exact ih m hm

theorem clearLoopF_isSome {V : Type} (root : Graph) :
    ∀ (fuel : Nat) (m : InputMap V) (p : List String), nonNullCount m ≤ fuel →
      (clearLoopF root fuel m p).isSome := by
  intro fuel
  induction fuel with
  | zero =>
    intro m p hm
    have h0 : nonNullCount m = 0 := Nat.le_zero.mp hm
    have h1 := clearLoopAt_of_zero root (fun _ _ => none) m h0 p
    show (clearLoopAt root (fun _ _ => none) m p).isSome
    rw [h1]
    rfl
  | succ f ih =>
    intro m p hm
    exact clearLoopAt_isSome root (clearLoopF root f) f
      (fun m p h => ih m p h) (fun m p r m' h => clearLoopF_count_le root f p m r m' h) p m hm

theorem clearLoopAt_congr {V : Type} (root : Graph)
    (d₁ d₂ : InputMap V → List String → Option (List String × InputMap V)) (fuel : Nat)
    (hagree : ∀ (m : InputMap V) p, nonNullCount m ≤ fuel → d₁ m p = d₂ m p)
    (hd₁C : ∀ (m : InputMap V) p r m', d₁ m p = some (r, m') →
      nonNullCount m' ≤ nonNullCount m) :
    ∀ (p : List String) (m : InputMap V), nonNullCount m ≤ fuel + 1 →
      clearLoopAt root d₁ m p = clearLoopAt root d₂ m p := by
  intro p
  induction p with
  | nil => intro m _; rfl
  | cons x xs ih =>
    intro m hm
    by_cases hx : (lookupInput m x).isSome
    · have h1 : nonNullCount (setNull m x) ≤ fuel := by
        have := nonNullCount_setNull_lt m x hx
        omega
      have heq := hagree (setNull m x) (GetInputsDependingOn root x) h1
      rcases hd2 : d₂ (setNull m x) (GetInputsDependingOn root x) with - | ⟨r₁, m₁⟩
      · simp [clearLoopAt, if_pos hx, heq, hd2]
      · have hd1 : d₁ (setNull m x) (GetInputsDependingOn root x) = some (r₁, m₁) := by
          rw [heq, hd2]
        have hm₁ : nonNullCount m₁ ≤ fuel + 1 := by
          have hA := hd₁C _ _ _ _ hd1
          have hB := nonNullCount_setNull_le m x
          omega
        simp only [clearLoopAt, if_pos hx, hd1, hd2]
        rw [ih m₁ hm₁]
    · simp only [clearLoopAt, if_neg hx]
      exact ih m hm

theorem clearLoopF_agree {V : Type} (root : Graph) :
    ∀ (f f' : Nat), f ≤ f' → ∀ (m : InputMap V) (p : List String), nonNullCount m ≤ f →
      clearLoopF root f m p = clearLoopF root f' m p := by
  intro f
  induction f with
  | zero =>
    intro f' _ m p hm
    have h0 : nonNullCount m = 0 := Nat.le_zero.mp hm
    cases f' with
    | zero => rfl
    | succ f'' =>
      have h1 := clearLoopAt_of_zero root (fun _ _ => none) m h0 p
      have h2 := clearLoopAt_of_zero root (clearLoopF root f'') m h0 p
      exact h1.trans h2.symm
  | succ f ih =>
    intro f' hff' m p hm
    cases f' with
    | zero => omega
    | succ f'' =>
      have hag : ∀ (m : InputMap V) p, nonNullCount m ≤ f →
          clearLoopF root f m p = clearLoopF root f'' m p :=
        fun m p h => ih f'' (by omega) m p h
      exact clearLoopAt_congr root _ _ f hag
        (fun m p r m' h => clearLoopF_count_le root f p m r m' h) p m hm

theorem clearLoopAt_spec {V : Type} (root : Graph)
    (deeper : InputMap V → List String → Option (List String × InputMap V))
    (hd : ∀ (m : InputMap V) p r m', deeper m p = some (r, m') →
      ClearOutcome root m p r m') :
    ∀ (p : List String) (m : InputMap V) r m', clearLoopAt root deeper m p = some (r, m') →
      ClearOutcome root m p r m' := by
  intro p
  induction p with
  | nil =>
    intro m r m' h
    simp only [clearLoopAt, Option.some.injEq, Prod.mk.injEq] at h
    obtain ⟨rfl, rfl⟩ := h.symm
    refine ⟨fun z hz => (reach_nil hz).elim, fun z _ => rfl, fun z => ?_⟩
    constructor
    · intro hz
      simp at hz
    · rintro ⟨y, hy, -⟩
      exact (reach_nil hy).elim
  | cons x xs ih =>
    intro m r m' h
    by_cases hx : (lookupInput m x).isSome
    · simp only [clearLoopAt, if_pos hx] at h
      split at h
      · simp at h
      · rename_i r₁ m₁ hd1
        split at h
        · simp at h
        · rename_i r₂ m₂ h2
          simp only [Option.some.injEq, Prod.mk.injEq] at h
          obtain ⟨rfl, rfl⟩ := h.symm
          obtain ⟨N₁, K₁, M₁⟩ := hd _ _ _ _ hd1
          obtain ⟨N₂, K₂, M₂⟩ := ih m₁ r₂ m₂ h2
          have hdec := reach_cons_decomp root m m₁ x xs hx N₁ K₁
          refine ⟨?_, ?_, ?_⟩
          · intro z hz
            rcases (hdec z).mp hz with rfl | hR | hR
            · by_cases hz2 : Reach root m₁ xs z
              · exact N₂ _ hz2
              · rw [K₂ _ hz2]
                by_cases hz1 : Reach root (setNull m z) (GetInputsDependingOn root z) z
                · exact N₁ _ hz1
                · rw [K₁ _ hz1, lookupInput_setNull, if_pos rfl]
            · by_cases hz2 : Reach root m₁ xs z
              · exact N₂ _ hz2
              · rw [K₂ _ hz2]
                exact N₁ _ hR
            · exact N₂ _ hR
          · intro z hz
            rw [hdec z] at hz
            push_neg at hz
            obtain ⟨hzx, hzR₁, hzR₂⟩ := hz
            rw [K₂ _ hzR₂, K₁ _ hzR₁, lookupInput_setNull, if_neg hzx]
          · intro z
            rw [List.mem_append, List.mem_append, M₁ z, M₂ z]
            constructor
            · rintro ((hz | ⟨y, hy, hzy⟩) | ⟨y, hy, hzy⟩)
              · exact ⟨x, (hdec x).mpr (Or.inl rfl), hz⟩
              · exact ⟨y, (hdec y).mpr (Or.inr (Or.inl hy)), hzy⟩
              · exact ⟨y, (hdec y).mpr (Or.inr (Or.inr hy)), hzy⟩
            · rintro ⟨y, hy, hzy⟩
              rcases (hdec y).mp hy with rfl | hR | hR
              · exact Or.inl (Or.inl hzy)
              · exact Or.inl (Or.inr ⟨y, hR, hzy⟩)
              · exact Or.inr ⟨y, hR, hzy⟩
    · simp only [clearLoopAt, if_neg hx] at h
      obtain ⟨N, K, M⟩ := ih m r m' h
      have hxnone : lookupInput m x = none := by
        cases hl : lookupInput m x with
        | none => rfl
        | some a => rw [hl] at hx; simp at hx
      refine ⟨?_, ?_, ?_⟩
      · intro z hz
        exact N z ((reach_cons_of_null hxnone z).mp hz)
      · intro z hz
        exact K z (fun hr => hz ((reach_cons_of_null hxnone z).mpr hr))
      · intro z
        rw [M z]
        constructor
        · rintro ⟨y, hy, hzy⟩
          exact ⟨y, (reach_cons_of_null hxnone y).mpr hy, hzy⟩
        · rintro ⟨y, hy, hzy⟩
          exact ⟨y, (reach_cons_of_null hxnone y).mp hy, hzy⟩

theorem clearLoopF_spec {V : Type} (root : Graph) :
    ∀ (fuel : Nat) (p : List String) (m : InputMap V) r m',
      clearLoopF root fuel m p = some (r, m') → ClearOutcome root m p r m' := by
  intro fuel
  induction fuel with
  | zero =>
    exact clearLoopAt_spec root _ (by intro m p r m' h; simp at h)
  | succ f ih =>
    exact clearLoopAt_spec root _ (fun m p r m' h => ih p m r m' h)

/-! ### Claims about `clearDependentInputs` -/

/-- Claim C5: `clearDependentInputs` terminates for every input value map and
every declared-dependency graph, including cyclic ones: run with any nesting
budget of at least the number of non-null inputs — in particular the recursion
depth the Go code actually attains — the literal recursion completes, with a
budget-independent result.  The graph `root` is universally quantified, with no
acyclicity assumption. -/
theorem clearDependentInputsF_terminates {V : Type} (root : Graph) (changedInput : String)
    (inputs : InputMap V) (fuel : Nat) (hfuel : nonNullCount inputs ≤ fuel) :
    clearDependentInputsF root fuel changedInput inputs
      = some (clearDependentInputs root changedInput inputs) := by
  have hs := clearLoopF_isSome root (nonNullCount inputs) inputs
    (GetInputsDependingOn root changedInput) (Nat.le_refl _)
  rcases heq : clearLoopF root (nonNullCount inputs) inputs
      (GetInputsDependingOn root changedInput) with - | ⟨r, m'⟩
  · rw [heq] at hs
    simp at hs
  · have hag := clearLoopF_agree root (nonNullCount inputs) fuel hfuel inputs
      (GetInputsDependingOn root changedInput) (Nat.le_refl _)
    rw [heq] at hag
    simp only [clearDependentInputsF, clearDependentInputs, ← hag, heq]

/-- Witness for C5 on a concrete two-cycle (`A` and `B` declared dependents of
each other, both non-null): budget 2 suffices and agrees with
`clearDependentInputs`. -/
theorem clearDependentInputsF_terminates_witness :
    nonNullCount ([("A", some 1), ("B", some 2)] : InputMap Nat) ≤ 2 ∧
    clearDependentInputsF (fun s => if s = "A" then ["B"] else if s = "B" then ["A"] else [])
        2 "A" ([("A", some 1), ("B", some 2)] : InputMap Nat)
      = some (clearDependentInputs
          (fun s => if s = "A" then ["B"] else if s = "B" then ["A"] else [])
          "A" ([("A", some 1), ("B", some 2)] : InputMap Nat)) :=
  ⟨by decide, clearDependentInputsF_terminates _ "A" _ 2 (by decide)⟩

/-- Claim C1 (amended): `clearDependentInputs` terminates and returns the
declared direct dependents of the changed input together with the declared
direct dependents of every input in the transitive closure of
declared-dependents-through-non-null-values (`Reach`); every input in that
closure is set to null and every other input keeps its value, so in particular
every returned input reads as null in the resulting map.  (As the
counterexample shows, inputs whose value was already null ARE included in the
returned cleared set whenever they are direct dependents of the changed input
or of a traversed input, although they are not traversed through; the returned
set is therefore a superset of the restricted transitive closure, not equal to
it.) -/
theorem clearDependentInputs_cleared {V : Type} (root : Graph) (changedInput : String)
    (inputs : InputMap V) :
    (∀ z, z ∈ (clearDependentInputs root changedInput inputs).1 ↔
      (z ∈ GetInputsDependingOn root changedInput ∨
        ∃ y, Reach root inputs (GetInputsDependingOn root changedInput) y ∧
          z ∈ GetInputsDependingOn root y)) ∧
    (∀ z, z ∈ (clearDependentInputs root changedInput inputs).1 →
      lookupInput (clearDependentInputs root changedInput inputs).2 z = none) ∧
    (∀ z, Reach root inputs (GetInputsDependingOn root changedInput) z →
      lookupInput (clearDependentInputs root changedInput inputs).2 z = none) ∧
    (∀ z, ¬ Reach root inputs (GetInputsDependingOn root changedInput) z →
      lookupInput (clearDependentInputs root changedInput inputs).2 z
        = lookupInput inputs z) := by
  have hs := clearLoopF_isSome root (nonNullCount inputs) inputs
    (GetInputsDependingOn root changedInput) (Nat.le_refl _)
  rcases heq : clearLoopF root (nonNullCount inputs) inputs
      (GetInputsDependingOn root changedInput) with - | ⟨r, m'⟩
  · rw [heq] at hs
    simp at hs
  · have hout : clearDependentInputs root changedInput inputs
        = (GetInputsDependingOn root changedInput ++ r, m') := by
      simp only [clearDependentInputs, clearDependentInputsF, heq]
    obtain ⟨N, K, M⟩ := clearLoopF_spec root (nonNullCount inputs)
      (GetInputsDependingOn root changedInput) inputs r m' heq
    simp only [hout]
    refine ⟨?_, ?_, fun z hz => N z hz, fun z hz => K z hz⟩
    · intro z
      rw [List.mem_append, M z]
    · intro z hz
      rcases List.mem_append.mp hz with hz | hz
      · by_cases hR : Reach root inputs (GetInputsDependingOn root changedInput) z
        · exact N z hR
        · rw [K z hR]
          cases hl : lookupInput inputs z with
          | none => rfl
          | some a => exact absurd (Reach.base hz (by rw [hl]; rfl)) hR
      · rcases (M z).mp hz with ⟨y, hy, hzy⟩
        by_cases hR : Reach root inputs (GetInputsDependingOn root changedInput) z
        · exact N z hR
        · rw [K z hR]
          cases hl : lookupInput inputs z with
          | none => rfl
          | some a => exact absurd (Reach.step hy hzy (by rw [hl]; rfl)) hR


/-- Witness for the amended C1 on a concrete instance: `B` (non-null, declared
dependent of `A`) is returned and reads as null in the resulting map. -/
theorem clearDependentInputs_cleared_witness :
    "B" ∈ (clearDependentInputs (fun s => if s = "A" then ["B"] else []) "A"
        ([("B", some 5)] : InputMap Nat)).1 ∧
    lookupInput (clearDependentInputs (fun s => if s = "A" then ["B"] else []) "A"
        ([("B", some 5)] : InputMap Nat)).2 "B" = none :=
  ⟨by decide, (clearDependentInputs_cleared (fun s => if s = "A" then ["B"] else [])
    "A" ([("B", some 5)] : InputMap Nat)).2.1 "B" (by decide)⟩

/-- Counterexample to claim C1 as stated: with `B` a declared dependent of `A`
and an input map in which `B` is null, the call returns `["B"]` — a
currently-null input is added to the cleared set, and the returned set is not
the transitive closure of declared-dependents restricted to non-null inputs
(that closure is empty here). -/
theorem clearDependentInputs_includes_null_dependent :
    (clearDependentInputs (fun s => if s = "A" then ["B"] else [])
        "A" ([] : InputMap Nat)).1 = ["B"] ∧
    lookupInput ([] : InputMap Nat) "B" = none ∧
    ¬ Reach (fun s => if s = "A" then ["B"] else []) ([] : InputMap Nat)
        (GetInputsDependingOn (fun s => if s = "A" then ["B"] else []) "A") "B" := by
  refine ⟨rfl, rfl, ?_⟩
  intro h
  have hsome := h.nonNull
  simp [lookupInput] at hsome

/-! ### Registry helper lemmas -/

theorem lookupAssoc_setAssoc {α : Type} (l : List (String × α)) (key : String) (v : α) :
    lookupAssoc (setAssoc l key v) key = some v := by
  induction l with
  | nil => simp [setAssoc, lookupAssoc]
  | cons p rest ih =>
    obtain ⟨k, v'⟩ := p
    by_cases hk : k = key
    · simp [setAssoc, hk, lookupAssoc]
    · simp [setAssoc, hk, lookupAssoc, ih]

theorem lookupAssoc_removeAssoc {α : Type} (l : List (String × α)) (key : String) :
    lookupAssoc (removeAssoc l key) key = none := by
  induction l with
  | nil => rfl
  | cons p rest ih =>
    obtain ⟨k, v⟩ := p
    by_cases hk : k = key
    · simpa [removeAssoc, List.filter_cons, hk] using ih
    · have hbeq : (k == key) = false := by simp [hk]
      simpa [removeAssoc, List.filter_cons, hbeq, lookupAssoc, hk] using ih

/-- After `CancelExecutionForSession`, the session has no registry entry. -/
theorem lookupAssoc_cancel {V : Type} (e : DashboardExecutor V) (sessionId : String) :
    lookupAssoc (CancelExecutionForSession e sessionId).executor.executions sessionId
      = none := by
  cases h : lookupAssoc e.executions sessionId with
  | none =>
    simp only [CancelExecutionForSession, getExecution, h]
  | some t =>
    simp only [CancelExecutionForSession, getExecution, h, removeExecution]
    exact lookupAssoc_removeAssoc _ _

/-- The tree registered for the session is handed to `Cancel()` by
`CancelExecutionForSession`. -/
theorem cancelled_of_lookup {V : Type} (e : DashboardExecutor V) (sessionId : String)
    (t₀ : DashboardExecutionTree V) (h : lookupAssoc e.executions sessionId = some t₀) :
    t₀ ∈ (CancelExecutionForSession e sessionId).cancelled := by
  simp [CancelExecutionForSession, getExecution, h]

/-! ### Claims about the executor operations -/

/-- Claim C10: `NewDashboardExecutor` always returns an executor with an empty
executions registry and interactive mode set to true, and for an interactive
executor `validateInputs` returns nil for every execution tree and every
inputs map (including the empty map), so input validation can never fail. -/
theorem NewDashboardExecutor_interactive_validate {V : Type} :
    (NewDashboardExecutor : DashboardExecutor V).executions = [] ∧
    (NewDashboardExecutor : DashboardExecutor V).interactive = true ∧
    ∀ (e : DashboardExecutor V) (executionTree : DashboardExecutionTree V)
      (inputs : InputMap V), e.interactive = true →
        validateInputs e executionTree inputs = none := by
  refine ⟨rfl, rfl, ?_⟩
  intro e t inputs h
  simp [validateInputs, h]

/-- Witness for C10: the freshly constructed executor is interactive and
validation succeeds on a tree with a required input and an empty inputs map. -/
theorem NewDashboardExecutor_interactive_validate_witness :
    (NewDashboardExecutor : DashboardExecutor Nat).interactive = true ∧
    validateInputs (NewDashboardExecutor : DashboardExecutor Nat) sampleTreeBatchDeps []
      = none :=
  ⟨rfl, (NewDashboardExecutor_interactive_validate (V := Nat)).2.2
    NewDashboardExecutor sampleTreeBatchDeps [] rfl⟩

/-- Claim C7: for a session id with no execution registered, `OnInputChanged`
returns the error naming the session and publishes no event (the executor is
also left untouched and nothing is cancelled). -/
theorem OnInputChanged_unknown_session {V : Type} (e : DashboardExecutor V)
    (ctx : Option CtxError) (newTree : Except String (DashboardExecutionTree V))
    (sessionId : String) (inputs : InputMap V) (changedInput : String)
    (h : lookupAssoc e.executions sessionId = none) :
    OnInputChanged e ctx newTree sessionId inputs changedInput =
      { executor := e
        events := []
        err := some ("no dashboard running for session " ++ sessionId)
        outcome := OnInputOutcome.noSession
        cancelled := [] } := by
  simp only [OnInputChanged, h]

/-- Witness for C7 at session `nope` on an empty registry. -/
theorem OnInputChanged_unknown_session_witness :
    lookupAssoc (NewDashboardExecutor : DashboardExecutor Nat).executions "nope" = none ∧
    (OnInputChanged (NewDashboardExecutor : DashboardExecutor Nat) none
        (Except.error "x") "nope" [] "x").err
      = some "no dashboard running for session nope" ∧
    (OnInputChanged (NewDashboardExecutor : DashboardExecutor Nat) none
        (Except.error "x") "nope" [] "x").events = [] := by
  have h := OnInputChanged_unknown_session (NewDashboardExecutor : DashboardExecutor Nat)
    none (Except.error "x") "nope" [] "x" rfl
  rw [h]
  exact ⟨rfl, rfl, rfl⟩

/-- Claim C6: `CancelExecutionForSession` on a session with no registered tree
is a no-op that emits no event; on a session with a registered tree it cancels
that tree and removes it from the registry, so an immediately following
`getExecution` returns not-found. -/
theorem CancelExecutionForSession_spec {V : Type} (e : DashboardExecutor V)
    (sessionId : String) :
    (getExecution e sessionId = none →
      CancelExecutionForSession e sessionId =
        { executor := e, cancelled := [], events := [] }) ∧
    (∀ t, getExecution e sessionId = some t →
      CancelExecutionForSession e sessionId =
        { executor := removeExecution e sessionId, cancelled := [t], events := [] } ∧
      getExecution (CancelExecutionForSession e sessionId).executor sessionId = none) := by
  constructor
  · intro h
    simp only [CancelExecutionForSession, h]
  · intro t h
    refine ⟨by simp only [CancelExecutionForSession, h], ?_⟩
    simp only [CancelExecutionForSession, h]
    simp only [getExecution, removeExecution]
    exact lookupAssoc_removeAssoc _ _

/-- Witness for C6: the unknown session `nope` is a no-op, and after
cancelling `s1` the session is gone from the registry. -/
theorem CancelExecutionForSession_spec_witness :
    CancelExecutionForSession sampleExecRunning "nope" =
      { executor := sampleExecRunning, cancelled := [], events := [] } ∧
    getExecution (CancelExecutionForSession sampleExecRunning "s1").executor "s1"
      = none := by
  have h₁ := (CancelExecutionForSession_spec sampleExecRunning "nope").1 rfl
  have h₂ := (CancelExecutionForSession_spec sampleExecRunning "s1").2 sampleTreeRunning rfl
  exact ⟨h₁, h₂.2⟩

/-- Claim C2: with a registered tree, `OnInputChanged` invokes
`ExecuteDashboard` to restart if and only if the tree's run status is terminal
or the previous value of the changed input was non-null; otherwise it only
applies the (cleared) inputs to the live tree via `SetInputValues` and returns
no error. -/
theorem OnInputChanged_restart_iff {V : Type} (e : DashboardExecutor V)
    (ctx : Option CtxError) (newTree : Except String (DashboardExecutionTree V))
    (sessionId : String) (inputs : InputMap V) (changedInput : String)
    (t : DashboardExecutionTree V)
    (h : lookupAssoc e.executions sessionId = some t) :
    ((OnInputChanged e ctx newTree sessionId inputs changedInput).outcome
        = OnInputOutcome.restarted ↔
      (t.runStatus.IsFinished = true ∨
        (lookupInput t.inputValues changedInput).isSome = true)) ∧
    (¬ (t.runStatus.IsFinished = true ∨
        (lookupInput t.inputValues changedInput).isSome = true) →
      (OnInputChanged e ctx newTree sessionId inputs changedInput).outcome
          = OnInputOutcome.applied ∧
      (OnInputChanged e ctx newTree sessionId inputs changedInput).err = none ∧
      lookupAssoc (OnInputChanged e ctx newTree sessionId inputs
          changedInput).executor.executions sessionId
        = some (SetInputValues t (clearDependentInputs t.Root changedInput inputs).2)) := by
  by_cases hc : (t.runStatus.IsFinished || (lookupInput t.inputValues changedInput).isSome)
      = true
  · have hout : (OnInputChanged e ctx newTree sessionId inputs changedInput).outcome
        = OnInputOutcome.restarted := by
      simp [OnInputChanged, h, hc]
    exact ⟨iff_of_true hout ((Bool.or_eq_true _ _).mp hc),
      fun hn => absurd ((Bool.or_eq_true _ _).mp hc) hn⟩
  · have hcor : ¬ (t.runStatus.IsFinished = true ∨
        (lookupInput t.inputValues changedInput).isSome = true) :=
      fun hor => hc ((Bool.or_eq_true _ _).mpr hor)
    have ha : t.runStatus.IsFinished = false := by
      cases hA : t.runStatus.IsFinished
      · rfl
      · exact absurd (Or.inl hA) hcor
    have hb : (lookupInput t.inputValues changedInput).isSome = false := by
      cases hB : (lookupInput t.inputValues changedInput).isSome
      · rfl
      · exact absurd (Or.inr hB) hcor
    have hout : (OnInputChanged e ctx newTree sessionId inputs changedInput).outcome
        = OnInputOutcome.applied := by
      simp [OnInputChanged, h, ha, hb]
    have herr : (OnInputChanged e ctx newTree sessionId inputs changedInput).err
        = none := by
      simp [OnInputChanged, h, ha, hb]
    have hreg : (OnInputChanged e ctx newTree sessionId inputs
        changedInput).executor.executions
        = setAssoc e.executions sessionId
            (SetInputValues t (clearDependentInputs t.Root changedInput inputs).2) := by
      simp [OnInputChanged, h, ha, hb]
    refine ⟨iff_of_false (by rw [hout]; simp) hcor, fun _ => ⟨hout, herr, ?_⟩⟩
    rw [hreg]
    exact lookupAssoc_setAssoc _ _ _

/-- Witness for C2: on a running tree whose changed input was null the inputs
are applied in place with no error, and on a finished tree the dashboard is
restarted. -/
theorem OnInputChanged_restart_iff_witness :
    lookupAssoc sampleExecRunning.executions "s1" = some sampleTreeRunning ∧
    (OnInputChanged sampleExecRunning none (Except.error "boom") "s1"
        ([] : InputMap Nat) "region").outcome = OnInputOutcome.applied ∧
    (OnInputChanged sampleExecRunning none (Except.error "boom") "s1"
        ([] : InputMap Nat) "region").err = none ∧
    lookupAssoc sampleExecComplete.executions "s1" = some sampleTreeComplete ∧
    (OnInputChanged sampleExecComplete none (Except.ok sampleTreeComplete) "s1"
        ([] : InputMap Nat) "region").outcome = OnInputOutcome.restarted := by
  have h₁ := OnInputChanged_restart_iff sampleExecRunning none (Except.error "boom")
    "s1" [] "region" sampleTreeRunning rfl
  have h₂ := OnInputChanged_restart_iff sampleExecComplete none
    (Except.ok sampleTreeComplete) "s1" [] "region" sampleTreeComplete rfl
  have hnc : ¬ (sampleTreeRunning.runStatus.IsFinished = true ∨
      (lookupInput sampleTreeRunning.inputValues "region").isSome = true) := by decide
  obtain ⟨ha, hb, -⟩ := h₁.2 hnc
  exact ⟨rfl, ha, hb, rfl, h₂.1.mpr (Or.inl (by decide))⟩

/-- Claim C3: in batch mode, a tree requiring inputs absent from the supplied
map makes `ExecuteDashboard` fail before registration, with the message
listing the missing inputs after the word input pluralized by their count. -/
theorem ExecuteDashboard_batch_missing_inputs {V : Type} (e : DashboardExecutor V)
    (ctx : Option CtxError) (sessionId : String) (t : DashboardExecutionTree V)
    (inputs : InputMap V)
    (hbatch : e.interactive = false)
    (hmissing : t.inputRuntimeDependencies.filter
      (fun inputName => !(containsKey inputs inputName)) ≠ []) :
    (ExecuteDashboard e ctx sessionId (Except.ok t) inputs).err
      = some (pluralize "input" (t.inputRuntimeDependencies.filter
            (fun inputName => !(containsKey inputs inputName))).length
          ++ " " ++ sq
          ++ String.intercalate "," (t.inputRuntimeDependencies.filter
            (fun inputName => !(containsKey inputs inputName)))
          ++ sq ++ " must be provided using " ++ sq ++ "--arg name=value" ++ sq) ∧
    lookupAssoc (ExecuteDashboard e ctx sessionId
        (Except.ok t) inputs).executor.executions sessionId = none := by
  have hlen : 0 < (t.inputRuntimeDependencies.filter
      (fun inputName => !(containsKey inputs inputName))).length :=
    List.length_pos.mpr hmissing
  have hval : validateInputs e t inputs
      = some (pluralize "input" (t.inputRuntimeDependencies.filter
            (fun inputName => !(containsKey inputs inputName))).length
          ++ " " ++ sq
          ++ String.intercalate "," (t.inputRuntimeDependencies.filter
            (fun inputName => !(containsKey inputs inputName)))
          ++ sq ++ " must be provided using " ++ sq ++ "--arg name=value" ++ sq) := by
    simp only [validateInputs, hbatch, Bool.false_eq_true, if_false, if_pos hlen]
  constructor
  · simp only [ExecuteDashboard, hval]
  · simp only [ExecuteDashboard, hval]
    exact lookupAssoc_cancel e sessionId

/-- Witness for C3: a batch executor, a tree requiring `region`, and no
supplied inputs. -/
theorem ExecuteDashboard_batch_missing_inputs_witness :
    sampleExecBatch.interactive = false ∧
    sampleTreeBatchDeps.inputRuntimeDependencies.filter
      (fun inputName => !(containsKey ([] : InputMap Nat) inputName)) ≠ [] ∧
    (ExecuteDashboard sampleExecBatch none "s1" (Except.ok sampleTreeBatchDeps) []).err
      = some ("input " ++ sq ++ "region" ++ sq ++ " must be provided using "
          ++ sq ++ "--arg name=value" ++ sq) ∧
    lookupAssoc (ExecuteDashboard sampleExecBatch none "s1"
        (Except.ok sampleTreeBatchDeps) []).executor.executions "s1" = none := by
  have h := ExecuteDashboard_batch_missing_inputs sampleExecBatch none "s1"
    sampleTreeBatchDeps [] rfl (by decide)
  refine ⟨rfl, by decide, ?_, h.2⟩
  rw [h.1]
  decide

/-- Claim C4: when the context deadline has elapsed at return time and the body
produced no earlier error, the returned error is exactly "execution timed
out"; and every non-nil returned error is published as an `ExecutionError`
event carrying that error and the session id. -/
theorem ExecuteDashboard_timeout_and_error_event {V : Type} (e : DashboardExecutor V)
    (ctx : Option CtxError) (sessionId : String)
    (newTree : Except String (DashboardExecutionTree V)) (t : DashboardExecutionTree V)
    (inputs : InputMap V) :
    (validateInputs e t inputs = none →
      (ExecuteDashboard e (some CtxError.deadlineExceeded) sessionId
          (Except.ok t) inputs).err = some "execution timed out") ∧
    (∀ msg, (ExecuteDashboard e ctx sessionId newTree inputs).err = some msg →
      DashboardEvent.executionError msg sessionId
        ∈ (ExecuteDashboard e ctx sessionId newTree inputs).events) := by
  constructor
  · intro hval
    simp [ExecuteDashboard, hval]
  · intro msg h
    simp only [ExecuteDashboard] at h ⊢
    rw [h]
    simp

/-- Witness for C4: an interactive executor whose context deadline fired. -/
theorem ExecuteDashboard_timeout_and_error_event_witness :
    validateInputs (NewDashboardExecutor : DashboardExecutor Nat) sampleTreeRunning []
      = none ∧
    (ExecuteDashboard (NewDashboardExecutor : DashboardExecutor Nat)
        (some CtxError.deadlineExceeded) "s1" (Except.ok sampleTreeRunning) []).err
      = some "execution timed out" ∧
    DashboardEvent.executionError "execution timed out" "s1"
      ∈ (ExecuteDashboard (NewDashboardExecutor : DashboardExecutor Nat)
          (some CtxError.deadlineExceeded) "s1" (Except.ok sampleTreeRunning) []).events := by
  have h := ExecuteDashboard_timeout_and_error_event
    (NewDashboardExecutor : DashboardExecutor Nat) (some CtxError.deadlineExceeded)
    "s1" (Except.ok sampleTreeRunning) sampleTreeRunning []
  have h1 := h.1 rfl
  exact ⟨rfl, h1, h.2 _ h1⟩

/-- Claim C9: when `ExecuteDashboard` fails through tree construction or
batch-mode validation, the session ends with no execution registered — the
previously registered tree (if any) was cancelled and removed, and the new
tree is never added. -/
theorem ExecuteDashboard_error_no_registration {V : Type} (e : DashboardExecutor V)
    (ctx : Option CtxError) (sessionId : String)
    (newTree : Except String (DashboardExecutionTree V)) (inputs : InputMap V)
    (h : (∃ msg, newTree = Except.error msg) ∨
      (∃ t, newTree = Except.ok t ∧ validateInputs e t inputs ≠ none)) :
    (ExecuteDashboard e ctx sessionId newTree inputs).err ≠ none ∧
    lookupAssoc (ExecuteDashboard e ctx sessionId
        newTree inputs).executor.executions sessionId = none ∧
    ∀ t₀, lookupAssoc e.executions sessionId = some t₀ →
      t₀ ∈ (ExecuteDashboard e ctx sessionId newTree inputs).cancelled := by
  rcases h with ⟨msg, rfl⟩ | ⟨t, rfl, hval⟩
  · refine ⟨?_, ?_, ?_⟩
    · cases ctx <;> simp [ExecuteDashboard]
    · simp only [ExecuteDashboard]
      exact lookupAssoc_cancel e sessionId
    · intro t₀ ht₀
      simp only [ExecuteDashboard]
      exact cancelled_of_lookup e sessionId t₀ ht₀
  · rcases hvn : validateInputs e t inputs with - | msg
    · exact absurd hvn hval
    · refine ⟨?_, ?_, ?_⟩
      · cases ctx <;> simp [ExecuteDashboard, hvn]
      · simp only [ExecuteDashboard, hvn]
        exact lookupAssoc_cancel e sessionId
      · intro t₀ ht₀
        simp only [ExecuteDashboard, hvn]
        exact cancelled_of_lookup e sessionId t₀ ht₀

/-- Witness for C9: a failed tree construction for a session with a running
tree — the old tree is cancelled and the registry entry is gone. -/
theorem ExecuteDashboard_error_no_registration_witness :
    (ExecuteDashboard sampleExecRunning none "s1" (Except.error "boom")
        ([] : InputMap Nat)).err ≠ none ∧
    lookupAssoc (ExecuteDashboard sampleExecRunning none "s1" (Except.error "boom")
        ([] : InputMap Nat)).executor.executions "s1" = none ∧
    sampleTreeRunning ∈ (ExecuteDashboard sampleExecRunning none "s1"
        (Except.error "boom") ([] : InputMap Nat)).cancelled := by
  have h := ExecuteDashboard_error_no_registration sampleExecRunning none "s1"
    (Except.error "boom") [] (Or.inl ⟨"boom", rfl⟩)
  exact ⟨h.1, h.2.1, h.2.2 sampleTreeRunning rfl⟩

/-- Claim C8 (evaluation at the failing input): the trace of registry
operations performed by `OnInputChanged` starts with an unlocked read of
`e.executions` (executor.go:146) and therefore violates the mutex discipline,
while the locked accessors, the `ExecuteDashboard` trace, and the requirement
that the mutex is never held while a tree is handed to `Execute` all satisfy
it. -/
theorem onInputChanged_reads_registry_unlocked :
    registryAccessesLocked 0 (onInputChangedOps true true true true true) = false ∧
    registryAccessesLocked 0 getExecutionOps = true ∧
    registryAccessesLocked 0 setExecutionOps = true ∧
    registryAccessesLocked 0 removeExecutionOps = true ∧
    registryAccessesLocked 0 (executeDashboardOps true true true) = true ∧
    treeExecuteUnlocked 0 (executeDashboardOps true true true) = true := by
  decide

end Powerpipe
